import Mathlib

/-!
Verification development for the sci-fi award scraper (src/sci-fi.py).

The pipeline is embedded shallowly:
* HTML documents are modelled by the inductive `Node` type; the
  BeautifulSoup queries used by the script (`find` with tag, class and
  string filters, `find_next_sibling`, `find_all`, `get_text(strip=True)`,
  `tag.string`) are modelled by executable traversals over `Node`.
* Python dicts keyed by title (insertion ordered) are modelled by
  association lists `List (String × Book)`; dict update-or-insert is the
  recursive walk that updates the first matching key or appends at the end.
* The functions `get_year_links`, `get_novel_winners`, `process_awards`
  and `save_to_yaml` are translated line by line into `getYearLinks`,
  `getNovelWinners`, `processAwardsList` and `organizeBooks`.
-/

set_option autoImplicit false

namespace SciFi

/-- An HTML node: an element with a tag name, attribute list and children,
or a text node. Attribute values are raw strings; the class attribute is a
space-separated list, as in HTML. -/
inductive Node where
  | elem (tag : String) (attrs : List (String × String)) (children : List Node) : Node
  | text (s : String) : Node

namespace Node

/-- Children of a node (a text node has none). -/
def childrenOf : Node → List Node
  | .elem _ _ cs => cs
  | .text _ => []

/-- Whether the node is an element with the given tag name. -/
def isTag (t : String) : Node → Bool
  | .elem tg _ _ => tg == t
  | .text _ => false

/-- Value of an attribute, if present. -/
def attrOf (key : String) : Node → Option String
  | .elem _ attrs _ => attrs.lookup key
  | .text _ => none

/-- Split a character list at every occurrence of the separator, keeping
empty segments, exactly as the Python str.split with an explicit
single-character separator. The result is always nonempty. -/
def splitOnChar (c : Char) : List Char → List (List Char)
  | [] => [[]]
  | x :: xs =>
    match splitOnChar c xs with
    | [] => [[x]]
    | g :: gs => if x = c then [] :: g :: gs else (x :: g) :: gs

/-- Whether the node is an element carrying the given CSS class
(the class attribute split on spaces contains it), as BeautifulSoup
matches a class filter. -/
def hasClass (c : String) (n : Node) : Bool :=
  match attrOf "class" n with
  | some v => (splitOnChar ' ' v.toList).contains c.toList
  | none => false

/-- Whether the node is an element with an href attribute, as the
BeautifulSoup filter href=True. -/
def hasHref (n : Node) : Bool :=
  (attrOf "href" n).isSome

/-- Href value with empty-string default; the script reads the href of
anchors that were selected with href=True, so the default is never hit
on those. -/
def hrefOf (n : Node) : String :=
  (attrOf "href" n).getD ""

/-- The BeautifulSoup tag.string value: a text node is its own string;
an element with exactly one child has the string of that child; any other
element has none. -/
def nodeString : Node → Option String
  | .text s => some s
  | .elem _ _ [c] => nodeString c
  | .elem _ _ _ => none

end Node

open Node

mutual
/-- Depth-first search starting at one node whose following siblings are
given: if the node is an element satisfying the predicate it is returned
with those siblings, otherwise the search descends into its children.
Only element nodes are tested, as BeautifulSoup tag-name filters never
match bare strings. -/
def findWSNode (p : Node → Bool) : Node → List Node → Option (Node × List Node)
  | .text _, _ => none
  | .elem t a cs, rest =>
    if p (.elem t a cs) then some (.elem t a cs, rest)
    else findWSList p cs

/-- Depth-first document-order search over a sibling list. -/
def findWSList (p : Node → Bool) : List Node → Option (Node × List Node)
  | [] => none
  | n :: rest =>
    match findWSNode p n rest with
    | some r => some r
    | none => findWSList p rest
end

/-- Document-order search for the first node satisfying the predicate,
returning it together with its following siblings (the rest of the child
list of its parent). This models soup.find combined with the later
sibling searches starting from the found node. -/
def findWS (p : Node → Bool) (l : List Node) : Option (Node × List Node) :=
  findWSList p l

mutual
/-- All element nodes of one subtree satisfying the predicate, in
document order, descending also into matching elements. -/
def findAllNode (p : Node → Bool) : Node → List Node
  | .text _ => []
  | .elem t a cs =>
    (if p (.elem t a cs) then [Node.elem t a cs] else []) ++ findAllList p cs

/-- findAllNode over a sibling list, concatenated in order. -/
def findAllList (p : Node → Bool) : List Node → List Node
  | [] => []
  | n :: rest => findAllNode p n ++ findAllList p rest
end

/-- All element nodes satisfying the predicate, in document order:
models soup.find_all. -/
def findAllWS (p : Node → Bool) (l : List Node) : List Node :=
  findAllList p l

mutual
/-- All element nodes of one subtree, in document order. -/
def elemsNode : Node → List Node
  | .text _ => []
  | .elem t a cs => Node.elem t a cs :: elemsList cs

/-- elemsNode over a sibling list, concatenated in order. -/
def elemsList : List Node → List Node
  | [] => []
  | n :: rest => elemsNode n ++ elemsList rest
end

/-- All element descendants of a forest, in document order. -/
def allElems (l : List Node) : List Node :=
  elemsList l

/-- Strip leading and trailing whitespace, as the Python str.strip with
no argument. -/
def trimChars (cs : List Char) : List Char :=
  ((cs.dropWhile Char.isWhitespace).reverse.dropWhile Char.isWhitespace).reverse

/-- Python str.strip on a string. -/
def pyStrip (s : String) : String :=
  ⟨trimChars s.toList⟩

mutual
/-- get_text(strip=True): every descendant text fragment is stripped of
surrounding whitespace and the results are concatenated in order. -/
def getTextStrip : Node → String
  | .text s => pyStrip s
  | .elem _ _ cs => getTextStripList cs

/-- getTextStrip over a child list, concatenated in order. -/
def getTextStripList : List Node → String
  | [] => ""
  | n :: ns => getTextStrip n ++ getTextStripList ns
end

/-- A winner record, mirroring the dict literal built at line 73 of the
script: year, title, author and the ordered list of award names. -/
structure Book where
  year : Int
  title : String
  author : String
  awards : List String
deriving Repr, DecidableEq

/-- The base site URL hardcoded in the script. -/
def BASE_URL : String := "http://www.sfadb.com"

/-- The three hardcoded award tracks, as an insertion-ordered association
list from award display name to index-page path. -/
def AWARDS : List (String × String) :=
  [("Hugo", "/Hugo_Awards"), ("Nebula", "/Nebula_Awards"), ("Locus", "/Locus_Awards")]

/-- Value of a nonempty digit string, most significant digit first. -/
def digitsToNat (cs : List Char) : Nat :=
  cs.foldl (fun n c => n * 10 + (c.toNat - 48)) 0

/-- The Python int() constructor on a string: surrounding whitespace is
stripped, then an optional single sign followed by a nonempty run of
digits parses; anything else raises ValueError, modelled as none.
The script applies this to a segment of a split on underscore, so digit
group separators cannot occur and are not modelled. -/
def pythonInt (s : String) : Option Int :=
  match trimChars s.toList with
  | [] => none
  | '+' :: ds =>
    if ds ≠ [] ∧ ds.all Char.isDigit then some (digitsToNat ds) else none
  | '-' :: ds =>
    if ds ≠ [] ∧ ds.all Char.isDigit then some (-(digitsToNat ds : Int)) else none
  | ds =>
    if ds.all Char.isDigit then some (digitsToNat ds) else none

/-- The final underscore-delimited segment of a URL, as
year_url.split with underscore indexed at -1. The split result is never
empty, so the default segment is never taken. -/
def lastUnderscoreSegment (url : String) : String :=
  ⟨(splitOnChar '_' url.toList).getLastD []⟩

/-- Lines 63-68 of the script: year_url.split on underscore, last segment,
int() with ValueError recovered as 0. -/
def yearOf (yearUrl : String) : Int :=
  match pythonInt (lastUnderscoreSegment yearUrl) with
  | some n => n
  | none => 0

/-- Lookup in a title-keyed association list, first match. -/
def lookupTitle (t : String) : List (String × Book) → Option Book
  | [] => none
  | (k, b) :: rest => if k = t then some b else lookupTitle t rest

/-- The filter of line 54: a div with class category whose tag.string is
exactly the category name. -/
def isCategoryDiv (name : String) (n : Node) : Bool :=
  isTag "div" n && hasClass "category" n && nodeString n == some name

/-- The sibling filter of line 56: an ol or ul element. -/
def isListElem (n : Node) : Bool :=
  isTag "ol" n || isTag "ul" n

/-- The filter of line 59: a span with class winner. -/
def isWinnerSpan (n : Node) : Bool :=
  isTag "span" n && hasClass "winner" n

/-- Lines 59-62 for one list item: find a winner span among the item's
descendants; if present, the title is the text of the next sibling b
element (placeholder when absent) and the author the text of the next
sibling a element (placeholder when absent). Returns none when the item
has no winner span, modelling the skip of non-winner rows. -/
def processLi (li : Node) : Option (String × String) :=
  match findWS isWinnerSpan (childrenOf li) with
  | none => none
  | some (_, sibs) =>
    let title :=
      match sibs.find? (isTag "b") with
      | some b => getTextStrip b
      | none => "Title not found"
    let author :=
      match sibs.find? (isTag "a") with
      | some a => getTextStrip a
      | none => "Author not found"
    some (title, author)

/-- Lines 69-74: dict update-or-insert on the per-page result map. When
the title is already present its awards list gets the award name appended
unconditionally; otherwise a fresh record with a singleton awards list is
inserted at the end. -/
def addExtract (award : String) (yr : Int) (t a : String) :
    List (String × Book) → List (String × Book)
  | [] => [(t, ⟨yr, t, a, [award]⟩)]
  | (k, b) :: rest =>
    if k = t then (k, { b with awards := b.awards ++ [award] }) :: rest
    else (k, b) :: addExtract award yr t a rest

/-- One iteration of the inner loop of lines 58-74: process a list item
and fold a winner row, if any, into the books map. -/
def extractRow (award : String) (yr : Int)
    (books : List (String × Book)) (li : Node) : List (String × Book) :=
  match processLi li with
  | none => books
  | some (t, a) => addExtract award yr t a books

/-- The inner loop of lines 58-74 over all list items. -/
def extractList (award : String) (yr : Int)
    (books : List (String × Book)) (lis : List Node) : List (String × Book) :=
  lis.foldl (extractRow award yr) books

/-- One iteration of the outer loop of lines 53-74: find the category div
with the given label, its next ol/ul sibling, and fold all its li
descendants into the books map. -/
def extractCategory (page : List Node) (award : String) (yr : Int)
    (books : List (String × Book)) (name : String) : List (String × Book) :=
  match findWS (isCategoryDiv name) page with
  | none => books
  | some (_, sibs) =>
    match sibs.find? isListElem with
    | none => books
    | some wl => extractList award yr books (findAllWS (isTag "li") (childrenOf wl))

/-- Lines 51-77, get_novel_winners on an already-fetched page: for each of
the three category names in order, fold the winner rows of that category
into the page-local books map. -/
def getNovelWinners (page : List Node) (yearUrl : String) (award : String) :
    List (String × Book) :=
  ["Novel", "Sf Novel", "Fantasy Novel"].foldl
    (extractCategory page award (yearOf yearUrl)) []

/-- Line 37: all anchors with an href attribute whose tag.string is a
nonempty all-digit string. -/
def isYearAnchor (n : Node) : Bool :=
  isTag "a" n && hasHref n &&
    (match nodeString n with
     | some s => !s.toList.isEmpty && s.toList.all Char.isDigit
     | none => false)

/-- Lines 33-38, get_year_links on an already-fetched index page. -/
def getYearLinks (page : List Node) : List Node :=
  findAllWS isYearAnchor page

/-- Lines 124-126: merge an incoming awards list into an existing one,
appending each award name only when it is not already present. -/
def mergeAwards (existing incoming : List String) : List String :=
  incoming.foldl (fun acc aw => if aw ∈ acc then acc else acc ++ [aw]) existing

/-- Lines 122-128 for one incoming record: if the title exists in the
global map, union the awards into the existing record, leaving year,
title and author unchanged; otherwise insert the record at the end. -/
def addAgg (t : String) (r : Book) :
    List (String × Book) → List (String × Book)
  | [] => [(t, r)]
  | (k, b) :: rest =>
    if k = t then (k, { b with awards := mergeAwards b.awards r.awards }) :: rest
    else (k, b) :: addAgg t r rest

/-- Lines 122-128: fold a whole year-batch into the global books map, in
batch order. -/
def foldBatch (books batch : List (String × Book)) : List (String × Book) :=
  batch.foldl (fun bs tr => addAgg tr.1 tr.2 bs) books

/-- A crawl seen as data: the text of every URL, already parsed. -/
def Site : Type := String → List Node

/-- Lines 113-130 generalized over the award list: for each award, take
the year links of its index page, and for every link fold the winners of
that year page into the running global map. -/
def processAwardsList (awards : List (String × String)) (site : Site) :
    List (String × Book) :=
  awards.foldl (fun books ap =>
    (getYearLinks (site (BASE_URL ++ ap.2))).foldl (fun books link =>
      foldBatch books
        (getNovelWinners (site (BASE_URL ++ "/" ++ hrefOf link))
          (BASE_URL ++ "/" ++ hrefOf link) ap.1)) books) []

/-- The whole crawl over the three hardcoded awards. -/
def processAwards (site : Site) : List (String × Book) :=
  processAwardsList AWARDS site

/-- Lines 86-91: the per-year entry re-stating the four fields of a
record. -/
def entryOf (b : Book) : Book :=
  ⟨b.year, b.title, b.author, b.awards⟩

/-- Lines 81-91: dict update-or-insert on the year grouping, appending the
entry to the group of its year or opening a new group at the end. -/
def addToYearGroup : List (Int × List Book) → Book → List (Int × List Book)
  | [], b => [(b.year, [entryOf b])]
  | (y, es) :: rest, b =>
    if y = b.year then (y, es ++ [entryOf b]) :: rest
    else (y, es) :: addToYearGroup rest b

/-- Lines 81-96 of save_to_yaml: group the records by year in iteration
order; the simplified structure of single-key groupings written to the
file is exactly this insertion-ordered grouping. -/
def organizeBooks (books : List (String × Book)) : List (Int × List Book) :=
  books.foldl (fun acc tb => addToYearGroup acc tb.2) []

/-! ### Lemmas about the aggregator merge -/

theorem mem_mergeAwards_of_mem_left {a : String} :
    ∀ (y x : List String), a ∈ x → a ∈ mergeAwards x y := by
  intro y
  induction y with
  | nil => intro x h; exact h
  | cons aw y ih =>
    intro x h
    show a ∈ mergeAwards (if aw ∈ x then x else x ++ [aw]) y
    apply ih
    split
    · exact h
    · exact List.mem_append_left _ h

theorem mem_mergeAwards_of_mem_right {a : String} :
    ∀ (y x : List String), a ∈ y → a ∈ mergeAwards x y := by
  intro y
  induction y with
  | nil => intro x h; cases h
  | cons aw y ih =>
    intro x h
    show a ∈ mergeAwards (if aw ∈ x then x else x ++ [aw]) y
    rcases List.mem_cons.mp h with rfl | h
    · apply mem_mergeAwards_of_mem_left
      split
      · assumption
      · exact List.mem_append_right _ (List.mem_singleton_self a)
    · exact ih _ h

theorem mergeAwards_eq_of_subset :
    ∀ (y x : List String), (∀ a ∈ y, a ∈ x) → mergeAwards x y = x := by
  intro y
  induction y with
  | nil => intro x _; rfl
  | cons aw y ih =>
    intro x h
    show mergeAwards (if aw ∈ x then x else x ++ [aw]) y = x
    rw [if_pos (h aw (List.mem_cons_self aw y))]
    exact ih x fun a ha => h a (List.mem_cons_of_mem aw ha)

/-- Lookup of the merged title after addAgg when it was already present:
the record is the existing one with the awards unioned in. -/
theorem lookupTitle_addAgg_found {t : String} {r b : Book} :
    ∀ s : List (String × Book), lookupTitle t s = some b →
      lookupTitle t (addAgg t r s) =
        some { b with awards := mergeAwards b.awards r.awards } := by
  intro s
  induction s with
  | nil => intro h; cases h
  | cons kb rest ih =>
    obtain ⟨k, bk⟩ := kb
    intro h
    by_cases hk : k = t
    · subst hk
      simp [lookupTitle] at h
      subst h
      simp [addAgg, lookupTitle]
    · simp [lookupTitle, hk] at h
      simp [addAgg, lookupTitle, hk]
      exact ih h

/-- Lookup of a fresh title after addAgg: the incoming record itself. -/
theorem lookupTitle_addAgg_new {t : String} {r : Book} :
    ∀ s : List (String × Book), lookupTitle t s = none →
      lookupTitle t (addAgg t r s) = some r := by
  intro s
  induction s with
  | nil => intro _; simp [addAgg, lookupTitle]
  | cons kb rest ih =>
    obtain ⟨k, bk⟩ := kb
    intro h
    by_cases hk : k = t
    · subst hk; simp [lookupTitle] at h
    · simp [lookupTitle, hk] at h
      simp [addAgg, lookupTitle, hk]
      exact ih h

/-- addAgg on a different title leaves a lookup unchanged. -/
theorem lookupTitle_addAgg_other {t u : String} (hne : u ≠ t) (r : Book) :
    ∀ s : List (String × Book),
      lookupTitle t (addAgg u r s) = lookupTitle t s := by
  intro s
  induction s with
  | nil => simp [addAgg, lookupTitle, hne]
  | cons kb rest ih =>
    obtain ⟨k, bk⟩ := kb
    by_cases hk : k = u
    · subst hk
      simp [addAgg, lookupTitle, hne]
    · by_cases ht : k = t
      · subst ht; simp [addAgg, lookupTitle, hk]
      · simp [addAgg, lookupTitle, hk, ht]
        exact ih

/-- Folding any batch preserves presence of a title and leaves its scalar
fields unchanged, only ever growing the awards list. -/
theorem lookupTitle_foldBatch_mono {t : String} :
    ∀ (batch s : List (String × Book)) (b : Book),
      lookupTitle t s = some b →
      ∃ b', lookupTitle t (foldBatch s batch) = some b' ∧
        b'.year = b.year ∧ b'.title = b.title ∧ b'.author = b.author ∧
        ∀ a ∈ b.awards, a ∈ b'.awards := by
  intro batch
  induction batch with
  | nil => intro s b h; exact ⟨b, h, rfl, rfl, rfl, fun a ha => ha⟩
  | cons tr rest ih =>
    intro s b h
    obtain ⟨u, r⟩ := tr
    show ∃ b', lookupTitle t (foldBatch (addAgg u r s) rest) = some b' ∧ _
    by_cases hu : u = t
    · subst hu
      obtain ⟨b', hb', hy, ht', ha', hsub⟩ :=
        ih (addAgg u r s) _ (lookupTitle_addAgg_found s h)
      exact ⟨b', hb', hy, ht', ha',
        fun a ha => hsub a (mem_mergeAwards_of_mem_left _ _ ha)⟩
    · have := lookupTitle_addAgg_other hu r s
      obtain ⟨b', hb', hy, ht', ha', hsub⟩ :=
        ih (addAgg u r s) b (by rw [this]; exact h)
      exact ⟨b', hb', hy, ht', ha', hsub⟩

/-- After folding a batch, every record of the batch is covered: its title
is present and all its award names are in the stored awards list. -/
theorem foldBatch_covers :
    ∀ (batch s : List (String × Book)) (tr : String × Book), tr ∈ batch →
      ∃ b, lookupTitle tr.1 (foldBatch s batch) = some b ∧
        ∀ a ∈ tr.2.awards, a ∈ b.awards := by
  intro batch
  induction batch with
  | nil => intro s tr h; cases h
  | cons hd rest ih =>
    intro s tr h
    rcases List.mem_cons.mp h with rfl | h
    · obtain ⟨u, r⟩ := tr
      show ∃ b, lookupTitle u (foldBatch (addAgg u r s) rest) = some b ∧ _
      rcases hfound : lookupTitle u s with _ | b0
      · obtain ⟨b', hb', _, _, _, hsub⟩ :=
          lookupTitle_foldBatch_mono rest _ _ (lookupTitle_addAgg_new s hfound)
        exact ⟨b', hb', fun a ha => hsub a ha⟩
      · obtain ⟨b', hb', _, _, _, hsub⟩ :=
          lookupTitle_foldBatch_mono rest _ _ (lookupTitle_addAgg_found s hfound)
        exact ⟨b', hb', fun a ha =>
          hsub a (mem_mergeAwards_of_mem_right _ _ ha)⟩
    · exact ih (addAgg hd.1 hd.2 s) tr h

/-- addAgg is the identity when the incoming awards are already all
stored under the title. -/
theorem addAgg_eq_self {t : String} {r b : Book} :
    ∀ s : List (String × Book), lookupTitle t s = some b →
      (∀ a ∈ r.awards, a ∈ b.awards) → addAgg t r s = s := by
  intro s
  induction s with
  | nil => intro h; cases h
  | cons kb rest ih =>
    obtain ⟨k, bk⟩ := kb
    intro h hsub
    by_cases hk : k = t
    · subst hk
      simp [lookupTitle] at h
      subst h
      simp [addAgg, mergeAwards_eq_of_subset _ _ hsub]
    · simp [lookupTitle, hk] at h
      simp [addAgg, hk]
      exact ih h hsub

/-- Folding a batch every record of which is covered by the state is the
identity. -/
theorem foldBatch_eq_self :
    ∀ (batch s : List (String × Book)),
      (∀ tr ∈ batch, ∃ b, lookupTitle tr.1 s = some b ∧
        ∀ a ∈ tr.2.awards, a ∈ b.awards) →
      foldBatch s batch = s := by
  intro batch
  induction batch with
  | nil => intro s _; rfl
  | cons hd rest ih =>
    intro s h
    obtain ⟨b, hb, hsub⟩ := h hd (List.mem_cons_self hd rest)
    show foldBatch (addAgg hd.1 hd.2 s) rest = s
    rw [addAgg_eq_self s hb hsub]
    exact ih s fun tr htr => h tr (List.mem_cons_of_mem hd htr)

/-- Keys after addAgg: unchanged when the title is already a key,
otherwise the title is appended at the end. -/
theorem map_fst_addAgg (t : String) (r : Book) :
    ∀ s : List (String × Book),
      (addAgg t r s).map Prod.fst =
        if t ∈ s.map Prod.fst then s.map Prod.fst else s.map Prod.fst ++ [t] := by
  intro s
  induction s with
  | nil => simp [addAgg]
  | cons kb rest ih =>
    obtain ⟨k, bk⟩ := kb
    by_cases hk : k = t
    · subst hk
      simp [addAgg]
    · have hkt : ¬t = k := fun h => hk h.symm
      by_cases hmem : t ∈ rest.map Prod.fst
      · simp [addAgg, hk, hkt, hmem, ih]
      · simp [addAgg, hk, hkt, hmem, ih]

/-- addAgg preserves distinctness of the title keys. -/
theorem nodup_keys_addAgg (t : String) (r : Book)
    (s : List (String × Book)) (h : (s.map Prod.fst).Nodup) :
    ((addAgg t r s).map Prod.fst).Nodup := by
  rw [map_fst_addAgg]
  by_cases hmem : t ∈ s.map Prod.fst
  · simpa [hmem] using h
  · simp only [hmem, if_false]
    exact List.Nodup.append h (List.nodup_singleton t)
      (List.disjoint_singleton.mpr hmem)

/-- foldBatch preserves distinctness of the title keys. -/
theorem nodup_keys_foldBatch :
    ∀ (batch s : List (String × Book)), (s.map Prod.fst).Nodup →
      ((foldBatch s batch).map Prod.fst).Nodup := by
  intro batch
  induction batch with
  | nil => intro s h; exact h
  | cons hd rest ih =>
    intro s h
    exact ih (addAgg hd.1 hd.2 s) (nodup_keys_addAgg hd.1 hd.2 s h)

/-- Folding any family of batches over any index list preserves
distinctness of the title keys. -/
theorem nodup_keys_foldl_foldBatch {α : Type} :
    ∀ (l : List α) (g : α → List (String × Book)) (s : List (String × Book)),
      (s.map Prod.fst).Nodup →
      ((l.foldl (fun bs x => foldBatch bs (g x)) s).map Prod.fst).Nodup := by
  intro l
  induction l with
  | nil => intro g s h; exact h
  | cons x rest ih =>
    intro g s h
    exact ih g (foldBatch s (g x)) (nodup_keys_foldBatch (g x) s h)

/-- The whole crawl keeps the title keys distinct. -/
theorem nodup_keys_processAwardsList :
    ∀ (awards : List (String × String)) (site : Site),
      ((processAwardsList awards site).map Prod.fst).Nodup := by
  intro awards site
  suffices h : ∀ s : List (String × Book), (s.map Prod.fst).Nodup →
      ((awards.foldl (fun books ap =>
        (getYearLinks (site (BASE_URL ++ ap.2))).foldl (fun books link =>
          foldBatch books
            (getNovelWinners (site (BASE_URL ++ "/" ++ hrefOf link))
              (BASE_URL ++ "/" ++ hrefOf link) ap.1)) books) s).map Prod.fst).Nodup by
    exact h [] (by simp)
  induction awards with
  | nil => intro s h; exact h
  | cons ap rest ih =>
    intro s h
    exact ih _ (nodup_keys_foldl_foldBatch _ _ s h)

/-! ### Lemmas about the extractor fold -/

/-- Keys after addExtract: unchanged when the title is already a key,
otherwise the title is appended at the end. -/
theorem map_fst_addExtract (award : String) (yr : Int) (t a : String) :
    ∀ s : List (String × Book),
      (addExtract award yr t a s).map Prod.fst =
        if t ∈ s.map Prod.fst then s.map Prod.fst else s.map Prod.fst ++ [t] := by
  intro s
  induction s with
  | nil => simp [addExtract]
  | cons kb rest ih =>
    obtain ⟨k, bk⟩ := kb
    by_cases hk : k = t
    · subst hk
      simp [addExtract]
    · have hkt : ¬t = k := fun h => hk h.symm
      by_cases hmem : t ∈ rest.map Prod.fst
      · simp [addExtract, hk, hkt, hmem, ih]
      · simp [addExtract, hk, hkt, hmem, ih]

/-- addExtract preserves distinctness of the title keys. -/
theorem nodup_keys_addExtract (award : String) (yr : Int) (t a : String)
    (s : List (String × Book)) (h : (s.map Prod.fst).Nodup) :
    ((addExtract award yr t a s).map Prod.fst).Nodup := by
  rw [map_fst_addExtract]
  by_cases hmem : t ∈ s.map Prod.fst
  · simpa [hmem] using h
  · simp only [hmem, if_false]
    exact List.Nodup.append h (List.nodup_singleton t)
      (List.disjoint_singleton.mpr hmem)

/-- A record invariant that holds for freshly inserted records and is
stable under appending the award name is preserved by addExtract. -/
theorem addExtract_preserves (P : Book → Prop) (award : String) (yr : Int)
    (hnew : ∀ t a, P ⟨yr, t, a, [award]⟩)
    (hupd : ∀ b, P b → P { b with awards := b.awards ++ [award] }) :
    ∀ (t a : String) (s : List (String × Book)),
      (∀ tr ∈ s, P tr.2) → ∀ tr ∈ addExtract award yr t a s, P tr.2 := by
  intro t a s
  induction s with
  | nil =>
    intro _ tr htr
    simp [addExtract] at htr
    subst htr
    exact hnew t a
  | cons kb rest ih =>
    obtain ⟨k, bk⟩ := kb
    intro hs tr htr
    by_cases hk : k = t
    · subst hk
      simp only [addExtract, if_pos rfl] at htr
      rcases List.mem_cons.mp htr with rfl | htr
      · exact hupd bk (hs (k, bk) (List.mem_cons_self _ _))
      · exact hs tr (List.mem_cons_of_mem _ htr)
    · simp only [addExtract, if_neg hk] at htr
      rcases List.mem_cons.mp htr with rfl | htr
      · exact hs (k, bk) (List.mem_cons_self _ _)
      · exact ih (fun tr' h' => hs tr' (List.mem_cons_of_mem _ h')) tr htr

/-- extractRow preserves a record invariant of the kind of
addExtract_preserves. -/
theorem extractRow_preserves (P : Book → Prop) (award : String) (yr : Int)
    (hnew : ∀ t a, P ⟨yr, t, a, [award]⟩)
    (hupd : ∀ b, P b → P { b with awards := b.awards ++ [award] })
    (li : Node) (books : List (String × Book)) (h : ∀ tr ∈ books, P tr.2) :
    ∀ tr ∈ extractRow award yr books li, P tr.2 := by
  rcases hli : processLi li with _ | ⟨t, a⟩
  · simpa [extractRow, hli] using h
  · simpa [extractRow, hli] using addExtract_preserves P award yr hnew hupd t a books h

/-- extractList preserves a record invariant of the kind of
addExtract_preserves. -/
theorem extractList_preserves (P : Book → Prop) (award : String) (yr : Int)
    (hnew : ∀ t a, P ⟨yr, t, a, [award]⟩)
    (hupd : ∀ b, P b → P { b with awards := b.awards ++ [award] }) :
    ∀ (lis : List Node) (books : List (String × Book)),
      (∀ tr ∈ books, P tr.2) → ∀ tr ∈ extractList award yr books lis, P tr.2 := by
  intro lis
  induction lis with
  | nil => intro books h; exact h
  | cons li rest ih =>
    intro books h
    exact ih (extractRow award yr books li)
      (extractRow_preserves P award yr hnew hupd li books h)

/-- extractCategory preserves a record invariant of the kind of
addExtract_preserves. -/
theorem extractCategory_preserves (P : Book → Prop)
    (page : List Node) (award : String) (yr : Int)
    (hnew : ∀ t a, P ⟨yr, t, a, [award]⟩)
    (hupd : ∀ b, P b → P { b with awards := b.awards ++ [award] })
    (name : String) (books : List (String × Book)) (h : ∀ tr ∈ books, P tr.2) :
    ∀ tr ∈ extractCategory page award yr books name, P tr.2 := by
  unfold extractCategory
  rcases findWS (isCategoryDiv name) page with _ | ⟨_, sibs⟩
  · exact h
  · dsimp only
    rcases sibs.find? isListElem with _ | wl
    · exact h
    · exact extractList_preserves P award yr hnew hupd _ books h

/-- Every record that getNovelWinners returns satisfies any invariant that
holds of fresh singleton-award records and survives appending the award
name. -/
theorem getNovelWinners_preserves (P : Book → Prop)
    (page : List Node) (yearUrl award : String)
    (hnew : ∀ t a, P ⟨yearOf yearUrl, t, a, [award]⟩)
    (hupd : ∀ b, P b → P { b with awards := b.awards ++ [award] }) :
    ∀ tr ∈ getNovelWinners page yearUrl award, P tr.2 := by
  suffices h : ∀ (names : List String) (books : List (String × Book)),
      (∀ tr ∈ books, P tr.2) →
      ∀ tr ∈ names.foldl (extractCategory page award (yearOf yearUrl)) books,
        P tr.2 by
    intro tr htr
    exact h ["Novel", "Sf Novel", "Fantasy Novel"] [] (by simp) tr htr
  intro names
  induction names with
  | nil => intro books h; exact h
  | cons name rest ih =>
    intro books h
    exact ih _ (extractCategory_preserves P page award (yearOf yearUrl)
      hnew hupd name books h)

/-- extractRow preserves distinctness of the title keys. -/
theorem nodup_keys_extractRow (award : String) (yr : Int) (li : Node)
    (books : List (String × Book)) (h : (books.map Prod.fst).Nodup) :
    ((extractRow award yr books li).map Prod.fst).Nodup := by
  rcases hli : processLi li with _ | ⟨t, a⟩
  · simpa [extractRow, hli] using h
  · simpa [extractRow, hli] using nodup_keys_addExtract award yr t a books h

/-- extractList preserves distinctness of the title keys. -/
theorem nodup_keys_extractList (award : String) (yr : Int) :
    ∀ (lis : List Node) (books : List (String × Book)),
      (books.map Prod.fst).Nodup →
      ((extractList award yr books lis).map Prod.fst).Nodup := by
  intro lis
  induction lis with
  | nil => intro books h; exact h
  | cons li rest ih =>
    intro books h
    exact ih (extractRow award yr books li) (nodup_keys_extractRow award yr li books h)

/-- extractCategory preserves distinctness of the title keys. -/
theorem nodup_keys_extractCategory (page : List Node) (award : String)
    (yr : Int) (name : String) (books : List (String × Book))
    (h : (books.map Prod.fst).Nodup) :
    ((extractCategory page award yr books name).map Prod.fst).Nodup := by
  unfold extractCategory
  rcases findWS (isCategoryDiv name) page with _ | ⟨_, sibs⟩
  · exact h
  · dsimp only
    rcases sibs.find? isListElem with _ | wl
    · exact h
    · exact nodup_keys_extractList award yr _ books h

/-- The keys of the per-page result map of getNovelWinners are distinct. -/
theorem nodup_keys_getNovelWinners (page : List Node) (yearUrl award : String) :
    ((getNovelWinners page yearUrl award).map Prod.fst).Nodup := by
  suffices h : ∀ (names : List String) (books : List (String × Book)),
      (books.map Prod.fst).Nodup →
      ((names.foldl (extractCategory page award (yearOf yearUrl)) books).map
        Prod.fst).Nodup by
    exact h ["Novel", "Sf Novel", "Fantasy Novel"] [] (by simp)
  intro names
  induction names with
  | nil => intro books h; exact h
  | cons name rest ih =>
    intro books h
    exact ih _ (nodup_keys_extractCategory page award (yearOf yearUrl) name books h)

/-! ### Generic record invariants through the aggregator -/

/-- A nonempty awards list stays nonempty under the idempotent union. -/
theorem mergeAwards_ne_nil {x : List String} (y : List String) (hx : x ≠ []) :
    mergeAwards x y ≠ [] := by
  obtain ⟨a, ha⟩ := List.exists_mem_of_ne_nil x hx
  exact List.ne_nil_of_mem (mem_mergeAwards_of_mem_left y x ha)

/-- A record invariant that holds of the incoming record and is stable
under awards union is preserved by addAgg. -/
theorem addAgg_preserves (Q : Book → Prop) (t : String) (r : Book)
    (hr : Q r)
    (hmerge : ∀ b, Q b → Q { b with awards := mergeAwards b.awards r.awards }) :
    ∀ s : List (String × Book),
      (∀ tr ∈ s, Q tr.2) → ∀ tr ∈ addAgg t r s, Q tr.2 := by
  intro s
  induction s with
  | nil =>
    intro _ tr htr
    simp [addAgg] at htr
    subst htr
    exact hr
  | cons kb rest ih =>
    obtain ⟨k, bk⟩ := kb
    intro hs tr htr
    by_cases hk : k = t
    · subst hk
      simp only [addAgg, if_pos rfl] at htr
      rcases List.mem_cons.mp htr with rfl | htr
      · exact hmerge bk (hs (k, bk) (List.mem_cons_self _ _))
      · exact hs tr (List.mem_cons_of_mem _ htr)
    · simp only [addAgg, if_neg hk] at htr
      rcases List.mem_cons.mp htr with rfl | htr
      · exact hs (k, bk) (List.mem_cons_self _ _)
      · exact ih (fun tr' h' => hs tr' (List.mem_cons_of_mem _ h')) tr htr

/-- A record invariant stable under awards union is preserved by
foldBatch when every incoming record satisfies it. -/
theorem foldBatch_preserves (Q : Book → Prop)
    (hmerge : ∀ b r, Q b → Q r →
      Q { b with awards := mergeAwards b.awards r.awards }) :
    ∀ (batch s : List (String × Book)),
      (∀ tr ∈ s, Q tr.2) → (∀ tr ∈ batch, Q tr.2) →
      ∀ tr ∈ foldBatch s batch, Q tr.2 := by
  intro batch
  induction batch with
  | nil => intro s hs _; exact hs
  | cons hd rest ih =>
    intro s hs hb
    apply ih
    · exact addAgg_preserves Q hd.1 hd.2 (hb hd (List.mem_cons_self _ _))
        (fun b hQ => hmerge b hd.2 hQ (hb hd (List.mem_cons_self _ _))) s hs
    · exact fun tr htr => hb tr (List.mem_cons_of_mem _ htr)

/-- A record invariant stable under awards union is preserved by folding
any family of batches over any index list. -/
theorem foldl_foldBatch_preserves {α : Type} (Q : Book → Prop)
    (hmerge : ∀ b r, Q b → Q r →
      Q { b with awards := mergeAwards b.awards r.awards }) :
    ∀ (l : List α) (g : α → List (String × Book)) (s : List (String × Book)),
      (∀ x, ∀ tr ∈ g x, Q tr.2) → (∀ tr ∈ s, Q tr.2) →
      ∀ tr ∈ l.foldl (fun bs x => foldBatch bs (g x)) s, Q tr.2 := by
  intro l
  induction l with
  | nil => intro g s _ hs; exact hs
  | cons x rest ih =>
    intro g s hg hs
    exact ih g (foldBatch s (g x))
      (hg) (foldBatch_preserves Q hmerge (g x) s hs (hg x))

/-- A record invariant stable under awards union that holds of every
record the extractor produces holds of every record of the whole crawl. -/
theorem processAwardsList_record_inv (Q : Book → Prop)
    (hmerge : ∀ b r, Q b → Q r →
      Q { b with awards := mergeAwards b.awards r.awards })
    (hext : ∀ (page : List Node) (url award : String),
      ∀ tr ∈ getNovelWinners page url award, Q tr.2) :
    ∀ (awards : List (String × String)) (site : Site),
      ∀ tr ∈ processAwardsList awards site, Q tr.2 := by
  intro awards site
  suffices h : ∀ s : List (String × Book), (∀ tr ∈ s, Q tr.2) →
      ∀ tr ∈ awards.foldl (fun books ap =>
        (getYearLinks (site (BASE_URL ++ ap.2))).foldl (fun books link =>
          foldBatch books
            (getNovelWinners (site (BASE_URL ++ "/" ++ hrefOf link))
              (BASE_URL ++ "/" ++ hrefOf link) ap.1)) books) s, Q tr.2 by
    exact h [] (by simp)
  induction awards with
  | nil => intro s hs; exact hs
  | cons ap rest ih =>
    intro s hs
    exact ih _ (foldl_foldBatch_preserves Q hmerge _ _ s
      (fun link => hext _ _ _) hs)

/-! ### Claim theorems for the aggregator -/

/-- C2: the aggregated collection maps each title to exactly one record.
Folding a batch never creates a second entry for an existing title: the
key list after one merge step is unchanged when the title exists and
gains the title at the end otherwise, distinctness of the title keys is
preserved by every batch fold, and the keys of the whole crawl result
are distinct. -/
theorem aggregator_title_is_unique_key :
    (∀ (t : String) (r : Book) (s : List (String × Book)),
      (addAgg t r s).map Prod.fst =
        if t ∈ s.map Prod.fst then s.map Prod.fst else s.map Prod.fst ++ [t])
    ∧ (∀ (s batch : List (String × Book)),
      (s.map Prod.fst).Nodup → ((foldBatch s batch).map Prod.fst).Nodup)
    ∧ (∀ (awards : List (String × String)) (site : Site),
      ((processAwardsList awards site).map Prod.fst).Nodup) :=
  ⟨fun t r s => map_fst_addAgg t r s,
   fun s batch h => nodup_keys_foldBatch batch s h,
   nodup_keys_processAwardsList⟩

/-- Witness for C2 at concrete inputs: a batch mentioning an existing
title and a fresh one keeps the keys distinct. -/
theorem aggregator_title_is_unique_key_witness :
    (([("T", Book.mk 1953 "T" "A" ["Hugo"])].map Prod.fst).Nodup)
    ∧ ((foldBatch [("T", Book.mk 1953 "T" "A" ["Hugo"])]
        [("T", Book.mk 1999 "T" "B" ["Nebula"]),
         ("U", Book.mk 1999 "U" "C" ["Locus"])]).map Prod.fst).Nodup :=
  ⟨by decide,
   aggregator_title_is_unique_key.2.1
     [("T", Book.mk 1953 "T" "A" ["Hugo"])]
     [("T", Book.mk 1999 "T" "B" ["Nebula"]),
      ("U", Book.mk 1999 "U" "C" ["Locus"])] (by decide)⟩

/-- C3: folding the same batch into the aggregator twice yields the same
state, and in particular the same awards list for every title, as folding
it once: on the second fold every award name is already present, so
nothing is appended. -/
theorem aggregator_fold_idempotent :
    ∀ (s batch : List (String × Book)),
      foldBatch (foldBatch s batch) batch = foldBatch s batch := by
  intro s batch
  apply foldBatch_eq_self
  intro tr htr
  exact foldBatch_covers batch s tr htr

/-- C4: a title already present in the aggregator keeps its year, title
and author through any further batch; only the awards list can change. -/
theorem aggregator_first_seen_scalars :
    ∀ (b1 b2 : List (String × Book)) (t : String) (b : Book),
      lookupTitle t (foldBatch [] b1) = some b →
      ∃ b', lookupTitle t (foldBatch (foldBatch [] b1) b2) = some b' ∧
        b'.year = b.year ∧ b'.title = b.title ∧ b'.author = b.author := by
  intro b1 b2 t b h
  obtain ⟨b', hb', hy, ht, ha, _⟩ := lookupTitle_foldBatch_mono b2 _ b h
  exact ⟨b', hb', hy, ht, ha⟩

/-- Witness for C4 at concrete inputs: a second batch with a different
year and author for the same title leaves the stored scalar fields as the
first batch wrote them. -/
theorem aggregator_first_seen_scalars_witness :
    (lookupTitle "T" (foldBatch [] [("T", Book.mk 1953 "T" "A" ["Hugo"])]) =
      some (Book.mk 1953 "T" "A" ["Hugo"]))
    ∧ ∃ b', lookupTitle "T"
        (foldBatch (foldBatch [] [("T", Book.mk 1953 "T" "A" ["Hugo"])])
          [("T", Book.mk 1999 "T" "B" ["Nebula"])]) = some b' ∧
        b'.year = 1953 ∧ b'.title = "T" ∧ b'.author = "A" :=
  ⟨by decide,
   aggregator_first_seen_scalars [("T", Book.mk 1953 "T" "A" ["Hugo"])]
     [("T", Book.mk 1999 "T" "B" ["Nebula"])] "T"
     (Book.mk 1953 "T" "A" ["Hugo"]) (by decide)⟩

/-- C10: every record, whether in the per-page result of the extractor,
in any aggregator state reachable by folding batches of such records, or
in the final crawl result, has a nonempty awards list: records are
created with a singleton awards list and merges only append. -/
theorem record_awards_never_empty :
    (∀ (page : List Node) (yearUrl award : String),
      ∀ tr ∈ getNovelWinners page yearUrl award, tr.2.awards ≠ [])
    ∧ (∀ (s batch : List (String × Book)),
      (∀ tr ∈ s, tr.2.awards ≠ []) → (∀ tr ∈ batch, tr.2.awards ≠ []) →
      ∀ tr ∈ foldBatch s batch, tr.2.awards ≠ [])
    ∧ (∀ (awards : List (String × String)) (site : Site),
      ∀ tr ∈ processAwardsList awards site, tr.2.awards ≠ []) := by
  have hmerge : ∀ (b r : Book), b.awards ≠ [] → r.awards ≠ [] →
      ({ b with awards := mergeAwards b.awards r.awards } : Book).awards ≠ [] :=
    fun b r hb _ => mergeAwards_ne_nil r.awards hb
  have hext : ∀ (page : List Node) (yearUrl award : String),
      ∀ tr ∈ getNovelWinners page yearUrl award, tr.2.awards ≠ [] := by
    intro page yearUrl award
    exact getNovelWinners_preserves (fun b => b.awards ≠ []) page yearUrl award
      (fun t a => by simp) (fun b hb => by simp)
  refine ⟨hext, ?_, ?_⟩
  · exact fun s batch hs hb => foldBatch_preserves _ hmerge batch s hs hb
  · exact processAwardsList_record_inv _ hmerge hext

/-- Witness for C10 at concrete inputs: a tiny extractor page, aggregator
state and crawl all yield records with nonempty awards lists. -/
theorem record_awards_never_empty_witness :
    (∀ tr ∈ getNovelWinners
        [Node.elem "div" [("class", "category")] [Node.text "Novel"],
         Node.elem "ul" [] [Node.elem "li" []
           [Node.elem "span" [("class", "winner")] [Node.text "w"],
            Node.elem "b" [] [Node.text "T"],
            Node.elem "a" [("href", "x")] [Node.text "A"]]]]
        "u_1953" "Hugo", tr.2.awards ≠ [])
    ∧ ((∀ tr ∈ ([("T", Book.mk 1953 "T" "A" ["Hugo"])] :
          List (String × Book)), tr.2.awards ≠ [])
      ∧ ∀ tr ∈ foldBatch [("T", Book.mk 1953 "T" "A" ["Hugo"])]
          [("T", Book.mk 1999 "T" "B" ["Nebula"])], tr.2.awards ≠ []) :=
  ⟨record_awards_never_empty.1 _ "u_1953" "Hugo",
   by decide,
   record_awards_never_empty.2.1 [("T", Book.mk 1953 "T" "A" ["Hugo"])]
     [("T", Book.mk 1999 "T" "B" ["Nebula"])] (by decide) (by decide)⟩

/-! ### Claims about the extractor -/

/-- A winner list item naming title X by author A. -/
def tieLi : Node :=
  .elem "li" []
    [.elem "span" [("class", "winner")] [.text "w"],
     .elem "b" [] [.text "X"],
     .elem "a" [("href", "x")] [.text "A"]]

/-- A synthetic year page on which title X wins under both the Novel and
the Sf Novel category labels. -/
def tiePage : List Node :=
  [.elem "div" [("class", "category")] [.text "Novel"],
   .elem "ul" [] [tieLi],
   .elem "div" [("class", "category")] [.text "Sf Novel"],
   .elem "ul" [] [tieLi]]

/-- C1 counterexample: on a page where the same title wins under two
category labels, the extractor returns one record whose awards list holds
the award name twice, not exactly once: line 70 of the script appends the
award name unconditionally. -/
theorem extractor_tie_duplicates_award_counterexample :
    lookupTitle "X" (getNovelWinners tiePage "u_1999" "Hugo") =
      some (Book.mk 1999 "X" "A" ["Hugo", "Hugo"])
    ∧ (["Hugo", "Hugo"].count "Hugo") = 2 := by
  refine ⟨?_, rfl⟩
  rfl

/-- C1 amended: on a category tie the mapping still holds a single record
per title, and its awards list is the award name repeated once per
category under which the title won (so on a two-category tie the name
appears twice, not once). -/
theorem extractor_tie_merges_into_one_record :
    ∀ (page : List Node) (yearUrl award : String),
      (((getNovelWinners page yearUrl award).map Prod.fst).Nodup)
      ∧ ∀ tr ∈ getNovelWinners page yearUrl award,
          ∃ k, 0 < k ∧ tr.2.awards = List.replicate k award := by
  intro page yearUrl award
  refine ⟨nodup_keys_getNovelWinners page yearUrl award, ?_⟩
  apply getNovelWinners_preserves
    (fun b => ∃ k, 0 < k ∧ b.awards = List.replicate k award)
  · intro t a
    exact ⟨1, Nat.one_pos, by simp⟩
  · rintro b ⟨k, hk, hb⟩
    exact ⟨k + 1, Nat.succ_pos k, by simp [hb, List.replicate_succ']⟩

/-- Witness for amended C1 on the tie page: the single record for X holds
the award name replicated. -/
theorem extractor_tie_merges_into_one_record_witness :
    (("X", Book.mk 1999 "X" "A" ["Hugo", "Hugo"]) ∈
      getNovelWinners tiePage "u_1999" "Hugo")
    ∧ ∃ k, 0 < k ∧
      (Book.mk 1999 "X" "A" ["Hugo", "Hugo"]).awards = List.replicate k "Hugo" :=
  ⟨by decide,
   (extractor_tie_merges_into_one_record tiePage "u_1999" "Hugo").2
     ("X", Book.mk 1999 "X" "A" ["Hugo", "Hugo"]) (by decide)⟩

/-- A year page whose URL carries no parsable trailing segment. -/
def c6Page : List Node :=
  [.elem "div" [("class", "category")] [.text "Novel"],
   .elem "ul" [] [tieLi]]

/-- C6: every record the extractor returns has the year obtained from
the final underscore-delimited segment of the page URL via the Python
int parse, and an unparsable segment yields year 0; the parse failure is
absorbed, never propagated. -/
theorem extractor_year_from_url :
    (∀ (page : List Node) (yearUrl award : String),
      ∀ tr ∈ getNovelWinners page yearUrl award, tr.2.year = yearOf yearUrl)
    ∧ ∀ url : String,
        pythonInt (lastUnderscoreSegment url) = none → yearOf url = 0 := by
  constructor
  · intro page yearUrl award
    exact getNovelWinners_preserves (fun b => b.year = yearOf yearUrl)
      page yearUrl award (fun t a => rfl) (fun b hb => hb)
  · intro url h
    simp [yearOf, h]

/-- Witness for C6: a URL with no numeric trailing segment gives year 0
on a concrete extracted record. -/
theorem extractor_year_from_url_witness :
    (("X", Book.mk 0 "X" "A" ["Hugo"]) ∈
      getNovelWinners c6Page "http://www.sfadb.com/HugoAwardsNoYear" "Hugo")
    ∧ (Book.mk 0 "X" "A" ["Hugo"]).year =
        yearOf "http://www.sfadb.com/HugoAwardsNoYear"
    ∧ pythonInt (lastUnderscoreSegment "http://www.sfadb.com/HugoAwardsNoYear")
        = none
    ∧ yearOf "http://www.sfadb.com/HugoAwardsNoYear" = 0 :=
  ⟨by decide,
   extractor_year_from_url.1 c6Page "http://www.sfadb.com/HugoAwardsNoYear" "Hugo"
     ("X", Book.mk 0 "X" "A" ["Hugo"]) (by decide),
   by decide,
   extractor_year_from_url.2 "http://www.sfadb.com/HugoAwardsNoYear" (by decide)⟩

/-- C7: in a winner-marked list item, a missing following sibling bold
element yields the literal title placeholder and a missing following
sibling anchor element yields the literal author placeholder; the row is
still produced, nothing is raised. -/
theorem extractor_missing_elements_use_placeholders :
    ∀ (li sp : Node) (sibs : List Node),
      findWS isWinnerSpan (childrenOf li) = some (sp, sibs) →
      ((sibs.find? (isTag "b") = none →
        (processLi li).map Prod.fst = some "Title not found")
      ∧ (sibs.find? (isTag "a") = none →
        (processLi li).map Prod.snd = some "Author not found")) := by
  intro li sp sibs h
  constructor
  · intro hb
    simp [processLi, h, hb]
  · intro ha
    simp [processLi, h, ha]

/-- A winner-marked list item with no following bold or anchor sibling. -/
def bareLi : Node :=
  .elem "li" [] [.elem "span" [("class", "winner")] [.text "w"]]

/-- Witness for C7 on a list item whose winner span has no following
siblings at all: both placeholders appear. -/
theorem extractor_missing_elements_use_placeholders_witness :
    (findWS isWinnerSpan (childrenOf bareLi) =
      some (Node.elem "span" [("class", "winner")] [Node.text "w"], []))
    ∧ (List.find? (isTag "b") [] = none →
        (processLi bareLi).map Prod.fst = some "Title not found")
    ∧ (List.find? (isTag "a") [] = none →
        (processLi bareLi).map Prod.snd = some "Author not found") :=
  ⟨rfl,
   (extractor_missing_elements_use_placeholders bareLi
     (Node.elem "span" [("class", "winner")] [Node.text "w"]) [] rfl).1,
   (extractor_missing_elements_use_placeholders bareLi
     (Node.elem "span" [("class", "winner")] [Node.text "w"]) [] rfl).2⟩

/-! ### The serializer grouping as a declarative group-by -/

/-- The step that records a year the first time it is met. -/
def seenStep (acc : List Int) (y : Int) : List Int :=
  if y ∈ acc then acc else acc ++ [y]

/-- The distinct years of a list in order of first occurrence. -/
def firstSeenYears (ys : List Int) : List Int :=
  ys.foldl seenStep []

/-- Written after the words of the specification, as the comparison point
for the serializer: group the collection by the year field, one group per
distinct year in order of first encounter, each group holding the entries
of exactly the records carrying that year, in collection order. -/
def specGroupByYear (books : List (String × Book)) : List (Int × List Book) :=
  (firstSeenYears (books.map (fun tb => tb.2.year))).map
    (fun y => (y, (books.filter (fun tb => tb.2.year == y)).map
      (fun tb => entryOf tb.2)))

theorem mem_foldl_seenStep (a : Int) :
    ∀ (l acc : List Int),
      a ∈ l.foldl seenStep acc ↔ a ∈ acc ∨ a ∈ l := by
  intro l
  induction l with
  | nil => intro acc; simp
  | cons y l ih =>
    intro acc
    show a ∈ l.foldl seenStep (seenStep acc y) ↔ _
    rw [ih]
    have hstep : a ∈ seenStep acc y ↔ a ∈ acc ∨ a = y := by
      unfold seenStep
      by_cases hy : y ∈ acc
      · simp only [if_pos hy]
        constructor
        · exact Or.inl
        · rintro (h | rfl)
          · exact h
          · exact hy
      · simp [if_neg hy]
    rw [hstep]
    simp only [List.mem_cons]
    tauto

theorem nodup_foldl_seenStep :
    ∀ (l acc : List Int), acc.Nodup → (l.foldl seenStep acc).Nodup := by
  intro l
  induction l with
  | nil => intro acc h; exact h
  | cons y l ih =>
    intro acc h
    apply ih
    unfold seenStep
    by_cases hy : y ∈ acc
    · simpa [hy] using h
    · simp only [if_neg hy]
      exact List.Nodup.append h (List.nodup_singleton y)
        (List.disjoint_singleton.mpr hy)

theorem mem_firstSeenYears (a : Int) (ys : List Int) :
    a ∈ firstSeenYears ys ↔ a ∈ ys := by
  unfold firstSeenYears
  rw [mem_foldl_seenStep]
  simp

theorem nodup_firstSeenYears (ys : List Int) : (firstSeenYears ys).Nodup :=
  nodup_foldl_seenStep ys [] (List.nodup_nil)

/-- Filtering a singleton whose year differs gives the empty list. -/
theorem filter_single_ne (y : Int) (tb : String × Book) (h : ¬tb.2.year = y) :
    List.filter (fun tr => tr.2.year == y) [tb] = [] := by
  simp [List.filter_cons, h]

/-- When the year of the record has no group yet, addToYearGroup opens a
new group at the end. -/
theorem addToYearGroup_absent (b : Book) :
    ∀ gs : List (Int × List Book), b.year ∉ gs.map Prod.fst →
      addToYearGroup gs b = gs ++ [(b.year, [entryOf b])] := by
  intro gs
  induction gs with
  | nil => intro _; rfl
  | cons ye rest ih =>
    obtain ⟨y, es⟩ := ye
    intro h
    simp only [List.map_cons, List.mem_cons] at h
    push_neg at h
    obtain ⟨hy, hrest⟩ := h
    have hne : ¬y = b.year := fun he => hy he.symm
    simp only [addToYearGroup, if_neg hne, List.cons_append, List.cons.injEq,
      true_and]
    exact ih hrest

/-- When the groups are indexed by a duplicate-free key list containing
the year of the record, addToYearGroup appends the entry to exactly the
group of that year. -/
theorem addToYearGroup_present (b : Book) (f : Int → List Book) :
    ∀ K : List Int, K.Nodup → b.year ∈ K →
      addToYearGroup (K.map (fun y => (y, f y))) b =
        K.map (fun y => (y, if y = b.year then f y ++ [entryOf b] else f y)) := by
  intro K
  induction K with
  | nil => intro _ h; cases h
  | cons y0 K ih =>
    intro hnd hmem
    by_cases h0 : y0 = b.year
    · subst h0
      simp only [List.map_cons, addToYearGroup, eq_self_iff_true, if_true]
      congr 1
      apply List.map_congr_left
      intro y hy
      have hne : ¬y = b.year := fun he => (List.nodup_cons.mp hnd).1 (he ▸ hy)
      simp [hne]
    · rcases List.mem_cons.mp hmem with he | hmem'
      · exact absurd he.symm h0
      · simp only [List.map_cons, addToYearGroup, if_neg h0]
        rw [ih (List.nodup_cons.mp hnd).2 hmem']

/-- The serializer grouping equals the declarative group-by: same group
keys in first-encounter order, and each group holds the entries of
exactly the records of its year, in collection order. -/
theorem organizeBooks_eq_specGroupByYear :
    ∀ books : List (String × Book), organizeBooks books = specGroupByYear books := by
  intro books
  induction books using List.reverseRecOn with
  | nil => rfl
  | append_singleton bs tb ih =>
    have hfold : organizeBooks (bs ++ [tb]) =
        addToYearGroup (organizeBooks bs) tb.2 := by
      simp [organizeBooks, List.foldl_append]
    have hkeys : firstSeenYears ((bs ++ [tb]).map (fun tr => tr.2.year)) =
        seenStep (firstSeenYears (bs.map (fun tr => tr.2.year))) tb.2.year := by
      simp [firstSeenYears, List.foldl_append]
    rw [hfold, ih]
    unfold specGroupByYear
    rw [hkeys]
    unfold seenStep
    by_cases hmem : tb.2.year ∈ firstSeenYears (bs.map (fun tr => tr.2.year))
    · rw [if_pos hmem]
      rw [addToYearGroup_present tb.2 _ _
        (nodup_firstSeenYears _) hmem]
      apply List.map_congr_left
      intro y hy
      by_cases hyb : y = tb.2.year
      · subst hyb
        simp [List.filter_append, List.filter_cons]
      · have hne : ¬tb.2.year = y := fun he => hyb he.symm
        simp [List.filter_append, filter_single_ne y tb hne, hyb]
    · rw [if_neg hmem]
      have habs : tb.2.year ∉
          ((firstSeenYears (bs.map (fun tr => tr.2.year))).map
            (fun y => (y, (bs.filter (fun tr => tr.2.year == y)).map
              (fun tr => entryOf tr.2)))).map Prod.fst := by
        simpa [List.map_map, Function.comp] using hmem
      rw [addToYearGroup_absent tb.2 _ habs]
      rw [List.map_append]
      congr 1
      · apply List.map_congr_left
        intro y hy
        have hyb : ¬tb.2.year = y := fun he => hmem (he ▸ hy)
        simp [List.filter_append, filter_single_ne y tb hyb]
      · have hnil : bs.filter (fun tr => tr.2.year == tb.2.year) = [] := by
          apply List.filter_eq_nil_iff.mpr
          intro tr htr
          simp only [beq_iff_eq]
          intro he
          exact hmem ((mem_firstSeenYears _ _).mpr
            (List.mem_map.mpr ⟨tr, htr, he⟩))
        simp [List.filter_append, hnil, List.filter_cons]

/-- C5: the serializer output is exactly the declarative group-by on the
year field: one single-key grouping per distinct year in order of first
encounter while iterating the collection, each group holding precisely
the entries of the records of its year, and every entry of a group
carries the year of its group key. -/
theorem serializer_groupby_matches :
    ∀ books : List (String × Book),
      organizeBooks books = specGroupByYear books
      ∧ ∀ y es, (y, es) ∈ organizeBooks books → ∀ e ∈ es, e.year = y := by
  intro books
  refine ⟨organizeBooks_eq_specGroupByYear books, ?_⟩
  intro y es h e he
  rw [organizeBooks_eq_specGroupByYear books] at h
  unfold specGroupByYear at h
  obtain ⟨y', _, heq⟩ := List.mem_map.mp h
  have hy : y' = y := congrArg Prod.fst heq
  have hes : (List.map (fun tb => entryOf tb.2)
      (List.filter (fun tb => tb.2.year == y') books)) = es :=
    congrArg Prod.snd heq
  rw [← hes] at he
  obtain ⟨tb, htb, rfl⟩ := List.mem_map.mp he
  have hyr : tb.2.year = y' := by simpa using (List.mem_filter.mp htb).2
  simpa [entryOf] using hyr.trans hy

/-- Witness for C5 on a three-record collection spanning two years: the
group of 1953 is present, holds the two 1953 records in collection order,
and each of its entries carries year 1953. -/
theorem serializer_groupby_matches_witness :
    ((1953, [Book.mk 1953 "T" "A" ["Hugo"], Book.mk 1953 "V" "D" ["Locus"]]) ∈
      organizeBooks [("T", Book.mk 1953 "T" "A" ["Hugo"]),
        ("U", Book.mk 1999 "U" "C" ["Nebula"]),
        ("V", Book.mk 1953 "V" "D" ["Locus"])])
    ∧ (Book.mk 1953 "V" "D" ["Locus"]) ∈
        [Book.mk 1953 "T" "A" ["Hugo"], Book.mk 1953 "V" "D" ["Locus"]]
    ∧ (Book.mk 1953 "V" "D" ["Locus"]).year = 1953 :=
  ⟨by decide, by decide,
   (serializer_groupby_matches [("T", Book.mk 1953 "T" "A" ["Hugo"]),
      ("U", Book.mk 1999 "U" "C" ["Nebula"]),
      ("V", Book.mk 1953 "V" "D" ["Locus"])]).2 1953
     [Book.mk 1953 "T" "A" ["Hugo"], Book.mk 1953 "V" "D" ["Locus"]]
     (by decide) (Book.mk 1953 "V" "D" ["Locus"]) (by decide)⟩

/-! ### Claims about the year-index parser -/

mutual
/-- Membership in a filtered subtree traversal is membership among the
subtree elements plus the filter. -/
theorem mem_findAllNode (p : Node → Bool) :
    ∀ (n m : Node), m ∈ findAllNode p n ↔
      (m ∈ elemsNode n ∧ p m = true)
  | .text s, m => by simp [findAllNode, elemsNode]
  | .elem t a cs, m => by
    have ih := mem_findAllList p cs m
    by_cases hp : p (Node.elem t a cs) = true
    · simp only [findAllNode, if_pos hp, elemsNode, List.mem_append,
        List.mem_singleton, List.mem_cons, List.not_mem_nil, or_false]
      constructor
      · rintro (rfl | h)
        · exact ⟨Or.inl rfl, hp⟩
        · exact ⟨Or.inr (ih.mp h).1, (ih.mp h).2⟩
      · rintro ⟨rfl | h, hpm⟩
        · exact Or.inl rfl
        · exact Or.inr (ih.mpr ⟨h, hpm⟩)
    · simp only [findAllNode, if_neg hp, elemsNode, List.nil_append,
        List.mem_append, List.mem_cons]
      constructor
      · intro h
        exact ⟨Or.inr (ih.mp h).1, (ih.mp h).2⟩
      · rintro ⟨rfl | h, hpm⟩
        · exact absurd hpm hp
        · exact ih.mpr ⟨h, hpm⟩

/-- Membership in a filtered forest traversal is membership among the
forest elements plus the filter. -/
theorem mem_findAllList (p : Node → Bool) :
    ∀ (l : List Node) (m : Node), m ∈ findAllList p l ↔
      (m ∈ elemsList l ∧ p m = true)
  | [], m => by simp [findAllList, elemsList]
  | n :: rest, m => by
    have ih1 := mem_findAllNode p n m
    have ih2 := mem_findAllList p rest m
    simp only [findAllList, elemsList, List.mem_append, ih1, ih2]
    tauto
end

/-- C8 amended: get_year_links returns exactly the element nodes of the
page that are anchors carrying an href attribute whose tag.string is a
nonempty all-digit string; anchors without href, without a direct string,
or with non-numeric text are excluded, and when nothing matches the
result is the empty list. -/
theorem year_links_characterization :
    ∀ (page : List Node) (n : Node),
      n ∈ getYearLinks page ↔ (n ∈ allElems page ∧ isYearAnchor n = true) := by
  intro page n
  exact mem_findAllList isYearAnchor page n

/-- A page holding one anchor with all-digit visible text but no href
attribute. -/
def c8Anchor : Node := .elem "a" [] [.text "1999"]

/-- The single-anchor page for the C8 counterexample. -/
def c8Page : List Node := [c8Anchor]

/-- C8 counterexample: the anchor has purely numeric visible text, yet
get_year_links excludes it because the filter of line 37 also demands an
href attribute; the claimed characterization by visible text alone fails. -/
theorem year_links_visible_text_counterexample :
    getYearLinks c8Page = []
    ∧ c8Anchor ∈ allElems c8Page
    ∧ isTag "a" c8Anchor = true
    ∧ getTextStrip c8Anchor = "1999"
    ∧ ("1999".toList.all Char.isDigit) = true
    ∧ getTextStrip c8Anchor ≠ "" := by
  refine ⟨rfl, ?_, rfl, rfl, rfl, by decide⟩
  show c8Anchor ∈ [c8Anchor]
  exact List.mem_singleton_self _

/-! ### Claim about an empty crawl -/

/-- C9: an award whose index page yields no year links contributes
nothing: dropping it from the award list leaves the crawl result
unchanged, and when every award yields no links the aggregator produces
the empty collection and the serializer a valid empty document. -/
theorem empty_crawl_still_completes :
    (∀ (site : Site) (l1 l2 : List (String × String)) (a : String × String),
      getYearLinks (site (BASE_URL ++ a.2)) = [] →
      processAwardsList (l1 ++ a :: l2) site = processAwardsList (l1 ++ l2) site)
    ∧ ∀ (awards : List (String × String)) (site : Site),
        (∀ a ∈ awards, getYearLinks (site (BASE_URL ++ a.2)) = []) →
        processAwardsList awards site = []
        ∧ organizeBooks (processAwardsList awards site) = [] := by
  constructor
  · intro site l1 l2 a h
    simp only [processAwardsList, List.foldl_append, List.foldl_cons, h,
      List.foldl_nil]
  · intro awards site h
    have key : ∀ (l : List (String × String)),
        (∀ a ∈ l, getYearLinks (site (BASE_URL ++ a.2)) = []) →
        ∀ s : List (String × Book),
          l.foldl (fun books ap =>
            (getYearLinks (site (BASE_URL ++ ap.2))).foldl (fun books link =>
              foldBatch books
                (getNovelWinners (site (BASE_URL ++ "/" ++ hrefOf link))
                  (BASE_URL ++ "/" ++ hrefOf link) ap.1)) books) s = s := by
      intro l
      induction l with
      | nil => intro _ s; rfl
      | cons a rest ih =>
        intro hl s
        have ha := hl a (List.mem_cons_self a rest)
        simp only [List.foldl_cons, ha, List.foldl_nil]
        exact ih (fun x hx => hl x (List.mem_cons_of_mem a hx)) s
    have hmain : processAwardsList awards site = [] := key awards h []
    exact ⟨hmain, by rw [hmain]; rfl⟩

/-- Witness for C9 on a site with empty pages: every award yields no
links, the crawl result is empty and so is the serialized grouping. -/
theorem empty_crawl_still_completes_witness :
    (getYearLinks ((fun _ => ([] : List Node)) (BASE_URL ++ ("Nebula", "/Nebula_Awards").2)) = [])
    ∧ processAwardsList ([("Hugo", "/Hugo_Awards")] ++ ("Nebula", "/Nebula_Awards") :: [])
        (fun _ => ([] : List Node)) =
      processAwardsList ([("Hugo", "/Hugo_Awards")] ++ []) (fun _ => ([] : List Node))
    ∧ (∀ a ∈ AWARDS, getYearLinks ((fun _ => ([] : List Node)) (BASE_URL ++ a.2)) = [])
    ∧ processAwardsList AWARDS (fun _ => ([] : List Node)) = []
    ∧ organizeBooks (processAwardsList AWARDS (fun _ => ([] : List Node))) = [] :=
  ⟨rfl,
   empty_crawl_still_completes.1 (fun _ => ([] : List Node))
     [("Hugo", "/Hugo_Awards")] [] ("Nebula", "/Nebula_Awards") rfl,
   fun _ _ => rfl,
   (empty_crawl_still_completes.2 AWARDS (fun _ => ([] : List Node))
     (fun _ _ => rfl)).1,
   (empty_crawl_still_completes.2 AWARDS (fun _ => ([] : List Node))
     (fun _ _ => rfl)).2⟩

end SciFi
